import Mathlib

/-!
Shallow embedding of `src/signalscharacterisation/FeaturesImplementations.py`
(class `FeaturesImplementations`).  Signals are stored channel-major: a signal
is a `List (List ℚ)`, one inner list per channel, matching the python matrix of
shape (channels, samples).  numpy floats are embedded as exact rationals (reals
where a transcendental function is involved); numpy NaN-aware routines work on
`Option ℚ`, `none` standing for NaN.  Helper routines of the module
`FeaturesCalcHelper`, whose file is not part of the sources, are modelled from
the spec where a claim needs them; each such definition says so in its
doc comment.
-/

/-- Embedding of `np.mean` over one channel (mean of an empty list is 0,
a case no claim exercises). -/
def np_mean (l : List ℚ) : ℚ := l.sum / l.length

/-- Embedding of `np.var` (population variance, `ddof=0`) over one channel. -/
def np_var (l : List ℚ) : ℚ := ((l.map fun v => (v - np_mean l) ^ 2).sum) / l.length

/-- Embedding of `FeaturesImplementations.accumulated_energy`
(`FeaturesImplementations.py` lines 40-54), returning the `final_values`
array.  The python loop is `for i in range(0, x_size[1] - window_size,
window_size)`, i.e. the start indices are `0, w, 2w, ...` strictly below
`n - w`; the preallocated `variances` matrix has `floor(n / w)` columns and
columns the loop never writes stay zero, contributing nothing to
`np.sum(variances, axis=1)`. -/
def accumulated_energy (x : List (List ℚ)) (window_size : ℕ) : List ℚ :=
  let n := (x.headD []).length
  let steps := (n - window_size + (window_size - 1)) / window_size
  x.map fun ch =>
    ((List.range steps).map fun k => np_var ((ch.drop (k * window_size)).take window_size)).sum

/-- The per-window variance sum as the claim words it: variances of all
`floor(n / w)` non-overlapping windows, the last one included.  Stated from
the claim for comparison with `accumulated_energy`. -/
def accumulated_energy_spec (x : List (List ℚ)) (window_size : ℕ) : List ℚ :=
  let n := (x.headD []).length
  x.map fun ch =>
    ((List.range (n / window_size)).map fun k =>
      np_var ((ch.drop (k * window_size)).take window_size)).sum

/-- Embedding of `np.nanmean` over one channel: NaN entries (`none`) are
dropped; an all-NaN channel yields NaN. -/
def np_nanmean (l : List (Option ℚ)) : Option ℚ :=
  let v := l.filterMap id
  if v.length = 0 then none else some (np_mean v)

/-- Embedding of `np.nanvar` over one channel: NaN entries (`none`) are
dropped; an all-NaN channel yields NaN. -/
def np_nanvar (l : List (Option ℚ)) : Option ℚ :=
  let v := l.filterMap id
  if v.length = 0 then none else some (np_var v)

/-- Central moment of order `r` of one channel, used by the skewness and
kurtosis embeddings. -/
def central_moment (r : ℕ) (l : List ℚ) : ℚ :=
  ((l.map fun v => (v - np_mean l) ^ r).sum) / l.length

/-- Embedding of `scipy.stats.skew` (biased Fisher-Pearson `g1 = m3 / m2^1.5`,
default `nan_policy` propagates): a channel containing NaN yields NaN. -/
noncomputable def stats_skew (l : List (Option ℚ)) : Option ℝ :=
  if l.any fun o => o.isNone then none
  else
    let v := l.filterMap id
    some ((central_moment 3 v : ℝ) / Real.sqrt (central_moment 2 v : ℝ) ^ 3)

/-- Embedding of `scipy.stats.kurtosis` (Fisher's definition
`g2 = m4 / m2^2 - 3`, biased, default `nan_policy` propagates): a channel
containing NaN yields NaN. -/
def stats_kurtosis (l : List (Option ℚ)) : Option ℚ :=
  if l.any fun o => o.isNone then none
  else
    let v := l.filterMap id
    some (central_moment 4 v / central_moment 2 v ^ 2 - 3)

/-- The four value arrays of the `moments_channels` result record. -/
structure MomentsResult where
  mean : List (Option ℚ)
  variance : List (Option ℚ)
  skewness : List (Option ℝ)
  kurtosis : List (Option ℚ)

/-- Embedding of `FeaturesImplementations.moments_channels`
(`FeaturesImplementations.py` lines 56-83): `np.nanmean`, `np.nanvar`,
`stats.skew`, `stats.kurtosis` per channel. -/
noncomputable def moments_channels (x : List (List (Option ℚ))) : MomentsResult :=
  ⟨x.map np_nanmean, x.map np_nanvar, x.map stats_skew, x.map stats_kurtosis⟩

/-- Embedding of `np.diff` over one channel: first differences
`x[1:] - x[:-1]`. -/
def np_diff (l : List ℚ) : List ℚ := l.tail.zipWith (fun a b => a - b) l

/-- Count of sign changes of the first difference of a channel: positions
where the product of two consecutive differences is negative. -/
def sign_changes (l : List ℚ) : ℕ :=
  ((np_diff l).zip (np_diff l).tail).countP fun p => decide (p.1 * p.2 < 0)

/-- Modelled from the spec: `FeaturesCalcHelper.calc_petrosian_fractal_dimension`
is not under `src/`; the spec calls it the closed-form Petrosian estimate from
the sign-change count of the first difference, which is
`log n / (log n + log (n / (n + 0.4 Nd)))` with `n` the channel length and
`Nd` the sign-change count. -/
noncomputable def calc_petrosian_fractal_dimension (l : List ℚ) : ℝ :=
  Real.log l.length /
    (Real.log l.length +
      Real.log (l.length / (l.length + 0.4 * (sign_changes l : ℝ))))

/-- Embedding of `FeaturesImplementations.petrosian_fractal_dimension`
(`FeaturesImplementations.py` lines 288-302): the per-channel estimate applied
along axis 1. -/
noncomputable def petrosian_fractal_dimension (x : List (List ℚ)) : List ℝ :=
  x.map calc_petrosian_fractal_dimension

/-- Embedding of the inner `get_kartz` of
`FeaturesImplementations.katz_fractal_dimension` (line 313):
`np.log(np.abs(x - x[0]).max()) / np.log(len(x))`. -/
noncomputable def get_kartz (l : List ℚ) : ℝ :=
  Real.log (((l.map fun v => |v - l.headD 0|).max?).getD 0 : ℚ) / Real.log l.length

/-- Embedding of `FeaturesImplementations.katz_fractal_dimension`
(`FeaturesImplementations.py` lines 304-321): `get_kartz` applied along
axis 1. -/
noncomputable def katz_fractal_dimension (x : List (List ℚ)) : List ℝ :=
  x.map get_kartz

/-- Pointwise positive affine transform `a * x + b` of one channel, the
transform the affine-invariance claim quantifies over. -/
def affine (a b : ℚ) (l : List ℚ) : List ℚ := l.map fun v => a * v + b

/-- The length-`m` sequence `l, ⌊l/2⌋, ⌊l/4⌋, ...` of halved sample counts
produced by the loop of `dyadic_spectrum_measures` (lines 128-130). -/
def halve_seq (l : ℕ) : ℕ → List ℕ
  | 0 => []
  | m + 1 => l :: halve_seq (l / 2) m

/-- Embedding of the dyadic frequency level construction of
`FeaturesImplementations.dyadic_spectrum_measures`
(`FeaturesImplementations.py` lines 122-132): `lvl_d = ⌊n/2⌋`,
`n_lvls = ⌊log2 lvl_d⌋`, the loop fills `n_lvls + 1` entries
`lvl_d * sampling_freq / n` while halving `lvl_d`, and `np.flipud` reverses
the result into ascending order. -/
def dyadic_freq_levels (n_samples : ℕ) (sampling_freq : ℚ) : List ℚ :=
  ((halve_seq (n_samples / 2) (Nat.log2 (n_samples / 2) + 1)).map
    fun l : ℕ => (l : ℚ) * (sampling_freq / n_samples)).reverse

/-- Python 3 `round` (round half to even) on a rational, as used by
`int(round(n_samples / sfreq * tfreq))`. -/
def py_round (q : ℚ) : ℤ :=
  let f := ⌊q⌋
  let r := q - f
  if r < 1 / 2 then f
  else if 1 / 2 < r then f + 1
  else if f % 2 = 0 then f else f + 1

/-- Embedding of `np.cumsum` over one channel. -/
def np_cumsum (l : List ℚ) : List ℚ := (l.scanl (· + ·) 0).tail

/-- Embedding of `FeaturesImplementations.spectral_edge_freq`
(`FeaturesImplementations.py` lines 150-177).  `D` is the output of
`FeaturesCalcHelper.calc_normalized_fft` (a helper not under `src/`), stored
channel-major, so the python axis-0 operations on the (samples, channels)
array become per-channel list operations; `A.max()` is the global maximum
over the whole cumulative-sum array.  The returned per-channel value rescales
`np.min(np.abs(B), axis=0)` - the minimal value itself - by
`(spedge - 1) / (topfreq - 1) * tfreq`. -/
def spectral_edge_freq (n_samples : ℕ) (sfreq tfreq ppow : ℚ)
    (D : List (List ℚ)) : List ℚ :=
  let topfreq : ℕ := (py_round ((n_samples : ℚ) / sfreq * tfreq)).toNat + 1
  let A := D.map fun ch => np_cumsum (ch.take topfreq)
  let amax := ((A.flatMap id).max?).getD 0
  A.map fun a =>
    let spedge := ((a.map fun v => |v - amax * ppow|).min?).getD 0
    (spedge - 1) / ((topfreq : ℚ) - 1) * tfreq

/-- Modelled from the spec: `FeaturesCalcHelper.calc_normalized_fft` is not
under `src/`; for a pure sine of frequency `f0 = k * sfreq / n` the
normalized FFT magnitude has its mass split between the conjugate bins `k`
and `n - k`.  Concrete instance: `n = 8`, sine at bin 2. -/
def sine_fft_n8_bin2 : List (List ℚ) :=
  [[0, 0, 1 / 2, 0, 0, 0, 1 / 2, 0]]

/-- Embedding of the biased sample autocovariance at lag `k` used by
`statsmodels.tsa.stattools.acf` with `unbiased=False`: the demeaned cross
products summed over the `n - k` overlapping positions, divided by `n`. -/
def acovf (l : List ℚ) (k : ℕ) : ℚ :=
  (((List.range (l.length - k)).map
    fun t => (l.getD t 0 - np_mean l) * (l.getD (t + k) 0 - np_mean l)).sum) / l.length

/-- Autocorrelation at lag `k` as `acf(..., unbiased=False)` computes it:
the biased autocovariance normalized by the lag-0 autocovariance. -/
def acf_rho (l : List ℚ) (k : ℕ) : ℚ := acovf l k / acovf l 0

/-- Embedding of `statsmodels.tsa.stattools.acf(x, unbiased=False, nlags)`:
the lags `0, 1, ..., nlags`. -/
def acf (l : List ℚ) (nlags : ℕ) : List ℚ := (List.range (nlags + 1)).map (acf_rho l)

/-- Embedding of `FeaturesImplementations.autocorrelation`
(`FeaturesImplementations.py` lines 360-374): `acf` per channel with
`unbiased=False`, then `autocorrs[:, 1:]` drops the lag-0 column. -/
def autocorrelation (x : List (List ℚ)) (nlags : ℕ) : List (List ℚ) :=
  x.map fun ch => (acf ch nlags).drop 1

/-- The unbiased autocorrelation estimate at lag `k` as the claim words it:
autocovariance averaged over its `n - k` terms, normalized by the lag-0
autocovariance.  Stated from the claim for comparison with `acf_rho`. -/
def acf_rho_unbiased_spec (l : List ℚ) (k : ℕ) : ℚ :=
  ((((List.range (l.length - k)).map
    fun t => (l.getD t 0 - np_mean l) * (l.getD (t + k) 0 - np_mean l)).sum) /
      (l.length - k : ℕ)) / acovf l 0

/-- Embedding of `FeaturesImplementations.detrended_fluctuation`
(`FeaturesImplementations.py` lines 339-358): the call to
`FeaturesCalcHelper.calc_dfa` is commented out, `dfa_channels = 0` is what
reaches `fill_results` whatever the signal is (the helper
`calc_logarithmic_n` is invoked for the window sizes but its result is
discarded). -/
def detrended_fluctuation (_x : List (List ℚ)) : ℚ := 0

/-- Per-channel mean of a `Fin`-indexed channel, for the correlation-matrix
embedding. -/
def chan_mean (n : ℕ) (v : Fin n → ℚ) : ℚ := (∑ t, v t) / n

/-- Sample covariance (normalized by `n`) of two channels of a `Fin`-indexed
signal. -/
def chan_cov (k n : ℕ) (x : Fin k → Fin n → ℚ) (i j : Fin k) : ℚ :=
  (∑ t, (x i t - chan_mean n (x i)) * (x j t - chan_mean n (x j))) / n

/-- Sample variance (normalized by `n`) of one channel of a `Fin`-indexed
signal. -/
def chan_var (k n : ℕ) (x : Fin k → Fin n → ℚ) (i : Fin k) : ℚ := chan_cov k n x i i

/-- Modelled from the spec: `FeaturesCalcHelper.calc_corr` is not under
`src/`; the spec names it the Pearson correlation matrix across channels,
`corr i j = cov(i, j) / sqrt(var i * var j)`. -/
noncomputable def calc_corr (k n : ℕ) (x : Fin k → Fin n → ℚ) :
    Matrix (Fin k) (Fin k) ℝ :=
  Matrix.of fun i j =>
    (chan_cov k n x i j : ℝ) / Real.sqrt ((chan_var k n x i : ℝ) * (chan_var k n x j : ℝ))

/-- The Pearson correlation matrix is real symmetric, hence Hermitian; this
packages the proof so that its eigenvalues are available. -/
def calc_corr_herm (k n : ℕ) (x : Fin k → Fin n → ℚ) : (calc_corr k n x).IsHermitian := by
  refine Matrix.IsHermitian.ext fun i j => ?_
  simp only [calc_corr, Matrix.of_apply, star_trivial, Matrix.conjTranspose_apply]
  rw [mul_comm ((chan_var k n x j : ℝ)) ((chan_var k n x i : ℝ))]
  congr 1
  show ((chan_cov k n x j i : ℚ) : ℝ) = ((chan_cov k n x i j : ℚ) : ℝ)
  norm_cast
  unfold chan_cov
  congr 1
  exact Finset.sum_congr rfl fun t _ => mul_comm _ _

/-- Modelled from the spec: `FeaturesCalcHelper.cal_eigens` is not under
`src/`; the spec names it the eigenvalue decomposition of a symmetric matrix,
and the feature keeps its `"lambda"` entry, the list of eigenvalues. -/
noncomputable def cal_eigens (k n : ℕ) (x : Fin k → Fin n → ℚ) : List ℝ :=
  (List.finRange k).map (calc_corr_herm k n x).eigenvalues

/-- Embedding of `np.triu_indices(k, 1)` extraction (line 199-200): the
strictly-upper-triangular entries of a matrix, row-major.  Since
`List.finRange` is ascending, the column indices `j > i` are the ones past
position `i`. -/
def triu_entries (k : ℕ) (A : Matrix (Fin k) (Fin k) ℝ) : List ℝ :=
  (List.finRange k).flatMap fun i => ((List.finRange k).drop (i.val + 1)).map fun j => A i j

/-- Embedding of `FeaturesImplementations.correlation_channels_time`
(`FeaturesImplementations.py` lines 179-205), returning the
`correlation_channels` values (strict upper triangle of the Pearson matrix)
and the `lambda` values (its eigenvalues). -/
noncomputable def correlation_channels_time (k n : ℕ) (x : Fin k → Fin n → ℚ) :
    List ℝ × List ℝ :=
  (triu_entries k (calc_corr k n x), cal_eigens k n x)

/-- Claim C10: `detrended_fluctuation` never invokes an actual DFA
computation; whatever the signal, the value reaching `fill_results` is the
placeholder scalar zero. -/
theorem detrended_fluctuation_returns_zero (x : List (List ℚ)) :
    detrended_fluctuation x = 0 := rfl

/-- Claim C1, evaluation at the failing input: for a pure sine at bin 2
(frequency 2 Hz with `n = 8`, `sfreq = 8`), `spectral_edge_freq` with
`tfreq = 4`, `ppow = 0.9` returns `-0.95`, which is farther than one FFT bin
width (1 Hz) from the sine frequency 2 Hz: the code rescales the minimal
value of `|cumsum - threshold|` instead of its argmin index. -/
theorem spectral_edge_freq_sine_far_from_f0 :
    spectral_edge_freq 8 8 4 (9 / 10) sine_fft_n8_bin2 = [-(19 / 20)] ∧
      ¬ |(-(19 / 20) : ℚ) - 2| ≤ 1 := by
  constructor
  · norm_num [spectral_edge_freq, sine_fft_n8_bin2, py_round, np_cumsum, List.scanl,
      min_def, abs_of_nonneg]
    simp
  · rw [abs_of_nonpos (by norm_num)]
    norm_num

/-- Claim C2, evaluation at the failing input: on one channel `[0, 2, 0, 4]`
with `energy_window_size = 2` the loop `range(0, n - w, w)` visits only
`i = 0`, so only the first window's variance (1) is summed, while the claim's
reading (all `floor(n/w) = 2` windows, the last included) gives `1 + 4 = 5`. -/
theorem accumulated_energy_drops_last_window :
    accumulated_energy [[0, 2, 0, 4]] 2 = [1] ∧
      accumulated_energy_spec [[0, 2, 0, 4]] 2 = [5] ∧
      ([1] : List ℚ) ≠ [5] := by
  refine ⟨?_, ?_, by simp⟩
  · norm_num [accumulated_energy, np_var, np_mean, List.range_succ]
  · norm_num [accumulated_energy_spec, np_var, np_mean, List.range_succ]

/-- Claim C7, evaluation at the failing input: with
`energy_window_size = n = 2` on the channel `[0, 2]`, `accumulated_energy`
returns 0 (its loop `range(0, n - w, w) = range(0, 0, 2)` is empty), while
the variance reported by `moments_channels` is 1. -/
theorem accumulated_energy_single_window_is_zero :
    accumulated_energy [[0, 2]] 2 = [0] ∧
      (moments_channels [[some 0, some 2]]).variance = [some 1] ∧
      (0 : ℚ) ≠ 1 := by
  refine ⟨?_, ?_, by norm_num⟩
  · norm_num [accumulated_energy, np_var, np_mean]
  · norm_num [moments_channels, np_nanvar, np_var, np_mean, List.filterMap_cons]

/-- Claim C5, counterexample: a signal shorter than the window
(`n = 2 < 5 = energy_window_size`) does not fail; `accumulated_energy`
returns the degenerate all-zeros value (no `InsufficientDataError` exists in
the code). -/
theorem accumulated_energy_short_no_error :
    accumulated_energy [[1, 2]] 5 = [0] := by
  norm_num [accumulated_energy, np_var, np_mean]

/-- Claim C5, amended: for every signal whose sample count is smaller than
`energy_window_size`, `accumulated_energy` silently returns an all-zeros
array (one zero per channel) instead of raising an error. -/
theorem accumulated_energy_short_all_zero (x : List (List ℚ)) (w : ℕ)
    (h : (x.headD []).length < w) :
    accumulated_energy x w = x.map fun _ => 0 := by
  have hw : 0 < w := lt_of_le_of_lt (Nat.zero_le _) h
  have h1 : (x.headD []).length - w = 0 := Nat.sub_eq_zero_of_le h.le
  simp only [accumulated_energy]
  rw [h1, Nat.div_eq_of_lt (by omega)]
  simp

/-- Claim C5, witness: the amended statement applied to a concrete short
signal. -/
theorem accumulated_energy_short_all_zero_witness :
    accumulated_energy [[3, 4, 5]] 7 = [0] := by
  have h := accumulated_energy_short_all_zero [[3, 4, 5]] 7 (by norm_num)
  simpa using h

/-- Claim C3, counterexample: on the channel `[1, 2, 4]` with
`autocorr_n_lags = 2`, the values returned by `autocorrelation` (computed
with `unbiased=False`, hence `-1/42` at lag 1) differ from the unbiased
estimates the claim asserts (`-1/28` at lag 1). -/
theorem autocorrelation_not_unbiased :
    autocorrelation [[1, 2, 4]] 2 ≠
      [(List.range 2).map fun k => acf_rho_unbiased_spec [1, 2, 4] (k + 1)] := by
  norm_num [autocorrelation, acf, acf_rho, acovf, acf_rho_unbiased_spec, np_mean,
    List.range_succ]

/-- Claim C3, amended: `autocorrelation` returns per channel the biased
autocorrelation estimates (`acf` is called with `unbiased=False`) for lags 1
through `autocorr_n_lags`: lag 0 is excluded, the first returned value is
lag 1, and the output has exactly `autocorr_n_lags` values per channel. -/
theorem autocorrelation_biased_lags (x : List (List ℚ)) (nlags : ℕ) :
    autocorrelation x nlags =
      x.map fun ch => (List.range nlags).map fun k => acf_rho ch (k + 1) := by
  simp only [autocorrelation, acf]
  refine List.map_congr_left fun ch _ => ?_
  rw [List.range_succ_eq_map]
  simp [List.map_map, Function.comp_def]

/-- The first differences of a positively scaled channel are the scaled first
differences. -/
theorem zipWith_sub_map_affine (a b : ℚ) : ∀ u v : List ℚ,
    List.zipWith (fun p q => p - q) (u.map fun t => a * t + b) (v.map fun t => a * t + b)
      = (List.zipWith (fun p q => p - q) u v).map fun d => a * d
  | [], _ => by simp
  | _ :: _, [] => by simp
  | x :: u, y :: v => by
    simp only [List.map_cons, List.zipWith_cons_cons, zipWith_sub_map_affine a b u v]
    congr 1
    ring

/-- Embedded `np.diff` commutes with the affine transform up to scaling. -/
theorem np_diff_affine (a b : ℚ) (l : List ℚ) :
    np_diff (affine a b l) = (np_diff l).map fun d => a * d := by
  unfold np_diff affine
  rw [(List.map_tail (fun t => a * t + b) l).symm]
  exact zipWith_sub_map_affine a b l.tail l

/-- Scaling both factors by a positive constant does not change the sign of a
product. -/
theorem mul_scaled_neg_iff (a p q : ℚ) (ha : 0 < a) :
    (a * p * (a * q) < 0) ↔ p * q < 0 := by
  have hp : 0 < a * a := mul_pos ha ha
  have hr : a * p * (a * q) = a * a * (p * q) := by ring
  rw [hr]
  constructor
  · intro hlt
    by_contra hge
    push_neg at hge
    exact absurd (mul_nonneg hp.le hge) (not_le.mpr hlt)
  · intro hlt
    exact mul_neg_of_pos_of_neg hp hlt

/-- The sign-change count of the first difference is invariant under positive
affine transforms. -/
theorem sign_changes_affine (a b : ℚ) (l : List ℚ) (ha : 0 < a) :
    sign_changes (affine a b l) = sign_changes l := by
  unfold sign_changes
  rw [np_diff_affine a b l, (List.map_tail (fun d => a * d) (np_diff l)).symm,
    List.zip_map, List.countP_map]
  refine List.countP_congr fun p _ => ?_
  simp only [Function.comp_apply, Prod.map_apply, decide_eq_true_eq]
  exact mul_scaled_neg_iff a p.1 p.2 ha

/-- The per-channel Petrosian estimate is invariant under positive affine
transforms: it depends only on the channel length and the sign-change
count. -/
theorem calc_petrosian_affine (a b : ℚ) (l : List ℚ) (ha : 0 < a) :
    calc_petrosian_fractal_dimension (affine a b l) = calc_petrosian_fractal_dimension l := by
  unfold calc_petrosian_fractal_dimension
  rw [sign_changes_affine a b l ha]
  simp [affine]

/-- The per-channel Katz estimate is invariant under shifts: the deviations
from the first sample are unchanged. -/
theorem get_kartz_shift (b : ℚ) (l : List ℚ) :
    get_kartz (affine 1 b l) = get_kartz l := by
  cases l with
  | nil => simp [affine]
  | cons x xs =>
    unfold get_kartz affine
    simp only [List.map_cons, List.headD_cons, List.length_cons, List.length_map,
      List.map_map]
    have hm : ((fun v => |v - (1 * x + b)|) ∘ fun v => 1 * v + b) = fun v => |v - x| := by
      funext t
      simp only [Function.comp_apply]
      ring_nf
    have hh : |1 * x + b - (1 * x + b)| = |x - x| := by
      ring_nf
    rw [hm, hh]

/-- Claim C4, counterexample: `katz_fractal_dimension` is not scale
invariant; doubling the one-channel signal `[0, 1]` moves its output from 0
to 1, an exact disagreement far beyond numerical tolerance. -/
theorem katz_not_scale_invariant :
    katz_fractal_dimension [affine 2 0 [0, 1]] ≠ katz_fractal_dimension [[0, 1]] := by
  have h1 : affine 2 0 [0, 1] = [0, 2] := by norm_num [affine]
  have e1 : get_kartz [0, 2] = 1 := by
    unfold get_kartz
    norm_num [List.max?, List.foldl, max_def]
  have e2 : get_kartz [0, 1] = 0 := by
    unfold get_kartz
    norm_num [List.max?, List.foldl, max_def]
  rw [h1]
  simp only [katz_fractal_dimension, List.map_cons, List.map_nil, e1, e2]
  intro h
  exact one_ne_zero (List.cons.injEq .. ▸ h).1

/-- Claim C4, amended: under a positive affine transform `a*x + b` with
`a > 0` the Petrosian fractal dimension is unchanged, while the Katz fractal
dimension `log(max|x_i - x_0|)/log(len x)` is unchanged only under pure
shifts (`a = 1`); a genuine rescaling shifts its numerator by `log a` (see
the counterexample). -/
theorem fractal_dimensions_affine_invariance (a b : ℚ) (x : List (List ℚ))
    (ha : 0 < a) :
    petrosian_fractal_dimension (x.map (affine a b)) = petrosian_fractal_dimension x ∧
      katz_fractal_dimension (x.map (affine 1 b)) = katz_fractal_dimension x := by
  constructor
  · unfold petrosian_fractal_dimension
    rw [List.map_map]
    exact List.map_congr_left fun ch _ => calc_petrosian_affine a b ch ha
  · unfold katz_fractal_dimension
    rw [List.map_map]
    exact List.map_congr_left fun ch _ => get_kartz_shift b ch

/-- Claim C4, witness: the amended statement applied at `a = 2`, `b = 3` on a
concrete one-channel signal. -/
theorem fractal_dimensions_affine_invariance_witness :
    petrosian_fractal_dimension ([[(0 : ℚ), 1, -1]].map (affine 2 3)) =
        petrosian_fractal_dimension [[(0 : ℚ), 1, -1]] ∧
      katz_fractal_dimension ([[(0 : ℚ), 1, -1]].map (affine 1 3)) =
        katz_fractal_dimension [[(0 : ℚ), 1, -1]] :=
  fractal_dimensions_affine_invariance 2 3 [[0, 1, -1]] (by norm_num)

/-- Claim C6: on a signal with NaN entries, `moments_channels` yields defined
(`some`) means and variances as soon as every channel has a finite sample,
while every channel's skewness and kurtosis are NaN (`none`) as soon as every
channel has a NaN: the NaN-aware `np.nanmean`/`np.nanvar` drop NaNs,
`stats.skew`/`stats.kurtosis` propagate them. -/
theorem moments_channels_nan_handling (x : List (List (Option ℚ)))
    (hfin : ∀ ch ∈ x, ∃ q : ℚ, some q ∈ ch) (hnan : ∀ ch ∈ x, none ∈ ch) :
    (∀ v ∈ (moments_channels x).mean, v.isSome) ∧
      (∀ v ∈ (moments_channels x).variance, v.isSome) ∧
      (∀ v ∈ (moments_channels x).skewness, v = none) ∧
      (∀ v ∈ (moments_channels x).kurtosis, v = none) := by
  have hlen : ∀ ch ∈ x, (ch.filterMap id).length ≠ 0 := by
    intro ch hch
    obtain ⟨q, hq⟩ := hfin ch hch
    have hmem : q ∈ ch.filterMap id := List.mem_filterMap.mpr ⟨some q, hq, rfl⟩
    exact (List.length_pos.mpr (List.ne_nil_of_mem hmem)).ne'
  have hany : ∀ ch ∈ x, (ch.any fun o => o.isNone) = true := by
    intro ch hch
    exact List.any_eq_true.mpr ⟨none, hnan ch hch, rfl⟩
  refine ⟨?_, ?_, ?_, ?_⟩ <;> intro v hv <;>
    obtain ⟨ch, hch, rfl⟩ := List.mem_map.mp hv
  · simp [np_nanmean, hlen ch hch]
  · simp [np_nanvar, hlen ch hch]
  · simp [stats_skew, hany ch hch]
  · simp [stats_kurtosis, hany ch hch]

/-- Claim C6, witness: the statement applied to the one-channel signal
`[1, NaN, 3]`. -/
theorem moments_channels_nan_handling_witness :
    (∀ v ∈ (moments_channels [[some (1 : ℚ), none, some 3]]).mean, v.isSome) ∧
      (∀ v ∈ (moments_channels [[some (1 : ℚ), none, some 3]]).variance, v.isSome) ∧
      (∀ v ∈ (moments_channels [[some (1 : ℚ), none, some 3]]).skewness, v = none) ∧
      (∀ v ∈ (moments_channels [[some (1 : ℚ), none, some 3]]).kurtosis, v = none) :=
  moments_channels_nan_handling [[some 1, none, some 3]]
    (by
      intro ch hch
      rw [List.mem_singleton] at hch
      subst hch
      exact ⟨1, by simp⟩)
    (by
      intro ch hch
      rw [List.mem_singleton] at hch
      subst hch
      simp)

/-- Lengths of the halving sequence. -/
theorem halve_seq_length : ∀ (m l : ℕ), (halve_seq l m).length = m
  | 0, _ => rfl
  | m + 1, l => by simp [halve_seq, halve_seq_length m (l / 2)]

/-- As long as the start value dominates `2 ^ m`, `m + 1` floor-halvings stay
strictly decreasing (no value reaches zero early). -/
theorem halve_seq_chain : ∀ (m l : ℕ), 2 ^ m ≤ l → (halve_seq l (m + 1)).Chain' (· > ·)
  | 0, l, _ => by simp [halve_seq]
  | m + 1, l, h => by
    have hl : 0 < l := lt_of_lt_of_le (pow_pos (by norm_num) (m + 1)) h
    have hdiv : 2 ^ m ≤ l / 2 :=
      (Nat.le_div_iff_mul_le (by norm_num)).mpr (by rw [← pow_succ]; exact h)
    have ih := halve_seq_chain m (l / 2) hdiv
    show List.Chain' (· > ·) (l :: l / 2 :: halve_seq (l / 2 / 2) m)
    exact List.chain'_cons.mpr ⟨Nat.div_lt_self hl (by norm_num), ih⟩

/-- Claim C8: for every signal with `n >= 2` samples and positive sampling
frequency, the dyadic construction yields exactly `log2(n/2) + 1` frequency
levels sorted strictly ascending; and in the concrete instance `n = 1024`,
`sampling_freq = 256` the last level is `128 = sampling_freq / 2`, the
Nyquist frequency. -/
theorem dyadic_freq_levels_ascending :
    (∀ (n : ℕ) (fs : ℚ), 2 ≤ n → 0 < fs →
      (dyadic_freq_levels n fs).length = Nat.log2 (n / 2) + 1 ∧
        (dyadic_freq_levels n fs).Chain' (· < ·)) ∧
      (dyadic_freq_levels 1024 256).getLast? = some 128 := by
  constructor
  · intro n fs hn hfs
    constructor
    · simp only [dyadic_freq_levels, List.length_reverse, List.length_map,
        halve_seq_length]
    · have hnq : (0 : ℚ) < (n : ℚ) :=
        Nat.cast_pos.mpr (lt_of_lt_of_le (by norm_num) hn)
      have hpos : (0 : ℚ) < fs / n := div_pos hfs hnq
      have hlog : 2 ^ Nat.log2 (n / 2) ≤ n / 2 := Nat.log2_self_le (by omega)
      have hchain := halve_seq_chain (Nat.log2 (n / 2)) (n / 2) hlog
      unfold dyadic_freq_levels
      rw [List.chain'_reverse]
      refine List.chain'_map_of_chain' _ (fun a b hab => ?_) hchain
      exact mul_lt_mul_of_pos_right (by exact_mod_cast hab) hpos
  · norm_num [dyadic_freq_levels, halve_seq, Nat.log2]

/-- Claim C8, witness: the quantified part applied at `n = 4`, `fs = 1`. -/
theorem dyadic_freq_levels_ascending_witness :
    (dyadic_freq_levels 4 1).length = Nat.log2 (4 / 2) + 1 ∧
      (dyadic_freq_levels 4 1).Chain' (· < ·) :=
  dyadic_freq_levels_ascending.1 4 1 (by norm_num) (by norm_num)

/-- Sample variances are nonnegative. -/
theorem chan_var_nonneg (k n : ℕ) (x : Fin k → Fin n → ℚ) (i : Fin k) :
    0 ≤ chan_var k n x i := by
  unfold chan_var chan_cov
  apply div_nonneg
  · exact Finset.sum_nonneg fun t _ => mul_self_nonneg _
  · exact Nat.cast_nonneg n

/-- A diagonal entry of the Pearson correlation matrix is 1 whenever the
channel variance does not vanish. -/
theorem calc_corr_diag_one (k n : ℕ) (x : Fin k → Fin n → ℚ) (i : Fin k)
    (h : chan_var k n x i ≠ 0) : calc_corr k n x i i = 1 := by
  unfold calc_corr
  simp only [Matrix.of_apply]
  rw [Real.sqrt_mul_self (by exact_mod_cast chan_var_nonneg k n x i)]
  exact div_self (by exact_mod_cast h)

/-- The strict upper triangle of a `k x k` matrix has `k(k-1)/2` entries. -/
theorem triu_entries_length (k : ℕ) (A : Matrix (Fin k) (Fin k) ℝ) :
    (triu_entries k A).length = k * (k - 1) / 2 := by
  unfold triu_entries
  rw [List.length_flatMap]
  simp only [Function.comp_def]
  have h1 : ((List.finRange k).map fun i =>
      (((List.finRange k).drop (i.val + 1)).map fun j => A i j).length)
      = (List.finRange k).map fun i => k - (i.val + 1) := by
    refine List.map_congr_left fun i _ => ?_
    rw [List.length_map, List.length_drop, List.length_finRange]
  rw [h1, ← Fin.sum_univ_def, Fin.sum_univ_eq_sum_range (fun i => k - (i + 1)) k]
  have h2 : ∀ i ∈ Finset.range k, k - (i + 1) = k - 1 - i := fun i _ => by omega
  rw [Finset.sum_congr rfl h2, Finset.sum_range_reflect (fun i => i) k]
  exact Finset.sum_range_id k

/-- The trace of a real Hermitian matrix is the sum of its eigenvalues, via
the spectral theorem and invariance of the trace under the unitary change of
basis. -/
theorem herm_trace_eq_sum_eigenvalues {k : ℕ} (A : Matrix (Fin k) (Fin k) ℝ)
    (hA : A.IsHermitian) : A.trace = ∑ i, hA.eigenvalues i := by
  have hU : star ((Matrix.IsHermitian.eigenvectorUnitary hA : Matrix (Fin k) (Fin k) ℝ))
      * (Matrix.IsHermitian.eigenvectorUnitary hA : Matrix (Fin k) (Fin k) ℝ) = 1 :=
    unitary.coe_star_mul_self (Matrix.IsHermitian.eigenvectorUnitary hA)
  calc A.trace
      = ((Matrix.IsHermitian.eigenvectorUnitary hA : Matrix (Fin k) (Fin k) ℝ)
          * Matrix.diagonal (RCLike.ofReal ∘ hA.eigenvalues)
          * star (Matrix.IsHermitian.eigenvectorUnitary hA : Matrix (Fin k) (Fin k) ℝ)).trace := by
        rw [← Matrix.IsHermitian.spectral_theorem hA]
    _ = (star ((Matrix.IsHermitian.eigenvectorUnitary hA : Matrix (Fin k) (Fin k) ℝ))
          * ((Matrix.IsHermitian.eigenvectorUnitary hA : Matrix (Fin k) (Fin k) ℝ)
            * Matrix.diagonal (RCLike.ofReal ∘ hA.eigenvalues))).trace := by
        rw [Matrix.trace_mul_comm]
    _ = (Matrix.diagonal (RCLike.ofReal ∘ hA.eigenvalues)).trace := by
        rw [← Matrix.mul_assoc, hU, Matrix.one_mul]
    _ = ∑ i, hA.eigenvalues i := by
        rw [Matrix.trace_diagonal]
        simp [RCLike.ofReal_real_eq_id]

/-- Claim C9: with every channel variance nonzero, `correlation_channels_time`
returns exactly `k(k-1)/2` pairwise correlation values and `k` eigenvalues,
and the eigenvalues sum to `k`, the trace of the correlation matrix whose
diagonal is all ones. -/
theorem correlation_channels_time_shape (k n : ℕ) (x : Fin k → Fin n → ℚ)
    (hv : ∀ i, chan_var k n x i ≠ 0) :
    (correlation_channels_time k n x).1.length = k * (k - 1) / 2 ∧
      (correlation_channels_time k n x).2.length = k ∧
      (correlation_channels_time k n x).2.sum = (k : ℝ) := by
  refine ⟨triu_entries_length k _, ?_, ?_⟩
  · simp [correlation_channels_time, cal_eigens]
  · show (cal_eigens k n x).sum = (k : ℝ)
    unfold cal_eigens
    rw [← Fin.sum_univ_def, ← herm_trace_eq_sum_eigenvalues _ (calc_corr_herm k n x)]
    unfold Matrix.trace
    have hd : ∀ i ∈ Finset.univ, (calc_corr k n x).diag i = 1 := fun i _ =>
      calc_corr_diag_one k n x i (hv i)
    rw [Finset.sum_congr rfl hd]
    simp

/-- Claim C9, witness: the statement applied to the two-channel signal
`[[0, 1], [0, 2]]`, whose channel variances `1/4` and `1` are nonzero. -/
theorem correlation_channels_time_shape_witness :
    (correlation_channels_time 2 2 ![![(0 : ℚ), 1], ![0, 2]]).1.length = 2 * (2 - 1) / 2 ∧
      (correlation_channels_time 2 2 ![![(0 : ℚ), 1], ![0, 2]]).2.length = 2 ∧
      (correlation_channels_time 2 2 ![![(0 : ℚ), 1], ![0, 2]]).2.sum = ((2 : ℕ) : ℝ) :=
  correlation_channels_time_shape 2 2 ![![(0 : ℚ), 1], ![0, 2]] (by
    intro i
    fin_cases i <;>
      norm_num [chan_var, chan_cov, chan_mean, Fin.sum_univ_two,
        Matrix.cons_val_zero, Matrix.cons_val_one, Matrix.head_cons])

